import Mathlib

/-!
Shallow embedding of the gallery plugin (`src/main.ts`): the line parser
`parseGalleryLine`, the aggregation pass `ExtractGalleryData.extract`, the
query evaluator `evaluateField`, the filtering loop of
`GallerySearchView.onOpen`, and the explicit-name branch of
`ExtractGalleryData.getGalleryContent`.  Strings are modelled by Lean
`String` (a list of characters); JavaScript regular-expression matching for
the two concrete patterns is implemented directly with leftmost search,
lazy captures and backtracking; JavaScript `Map` insertion-order semantics
are modelled by association lists.
-/

namespace GalleryPlugin

/-- `true` when the first list is an initial segment of the second
(character-by-character comparison, as a regex literal match does). -/
def leadsWith : List Char → List Char → Bool
  | [], _ => true
  | _ :: _, [] => false
  | a :: as, b :: bs => a == b && leadsWith as bs

/-- JavaScript `.` in a regular expression matches everything except a line
terminator. -/
def isLineTerm (c : Char) : Bool := c == '\n' || c == '\r'

/-- Substring test on character lists, used for JavaScript
`String.prototype.includes`: the needle occurs contiguously in the
haystack. -/
def includesSubList (needle : List Char) : List Char → Bool
  | [] => needle.isEmpty
  | c :: t => leadsWith needle (c :: t) || includesSubList needle t

/-- `hay.includes(needle)` from JavaScript. -/
def jsIncludes (hay needle : String) : Bool := includesSubList needle.data hay.data

/-- `s.toLowerCase()` from JavaScript: lower each character. -/
def jsToLower (s : String) : String := String.mk (s.data.map Char.toLower)

/-- Lazy capture `(.*?)` followed by the literal `needle`: returns the
shortest capture (line-terminator-free) such that `needle` follows, together
with the remainder after the needle. -/
def lazyUntil (needle : List Char) : List Char → Option (List Char × List Char)
  | [] => if leadsWith needle [] then some ([], []) else none
  | c :: t =>
    if leadsWith needle (c :: t) then some ([], (c :: t).drop needle.length)
    else if isLineTerm c then none
    else
      match lazyUntil needle t with
      | some (cap, rest) => some (c :: cap, rest)
      | none => none

/-- One split-point attempt of `(.*?)\]\]<(.*?)>>`: succeed only when the
literal `]]<` starts here and the trailing `(.*?)>>` also matches. -/
def annotHere (c : Char) (t : List Char) : Option (List Char × List Char) :=
  if leadsWith [']', ']', '<'] (c :: t) then
    match lazyUntil ['>', '>'] ((c :: t).drop 3) with
    | some (cap2, _) => some ([], cap2)
    | none => none
  else none

/-- The tail `(.*?)\]\]<(.*?)>>` of the annotated-embed regex, with
backtracking on the first capture: split points are tried left to right,
and a split is kept only when the trailing `(.*?)>>` also matches. -/
def annotTail : List Char → Option (List Char × List Char)
  | [] => none
  | c :: t =>
    match annotHere c t with
    | some r => some r
    | none =>
      if isLineTerm c then none
      else
        match annotTail t with
        | some (cap1, cap2) => some (c :: cap1, cap2)
        | none => none

/-- Match of `/<!\[\[(.*?)\]\]<(.*?)>>/` at the start of the input:
the pair of captured groups on success. -/
def annotAt (cs : List Char) : Option (List Char × List Char) :=
  if leadsWith ['<', '!', '[', '['] cs then annotTail (cs.drop 4) else none

/-- `line.match(/<!\[\[(.*?)\]\]<(.*?)>>/)`: leftmost starting position
wins, all backtracking at one position is explored before moving right. -/
def matchAnnot : List Char → Option (List Char × List Char)
  | [] => none
  | c :: t =>
    match annotAt (c :: t) with
    | some r => some r
    | none => matchAnnot t

/-- Match of `/!\[\[(.*?)\]\]/` at the start of the input: the captured
group on success. -/
def bareAt (cs : List Char) : Option (List Char) :=
  if leadsWith ['!', '[', '['] cs then
    match lazyUntil [']', ']'] (cs.drop 3) with
    | some (cap, _) => some cap
    | none => none
  else none

/-- `line.match(/!\[\[(.*?)\]\]/)`: leftmost match. -/
def matchBare : List Char → Option (List Char)
  | [] => none
  | c :: t =>
    match bareAt (c :: t) with
    | some r => some r
    | none => matchBare t

/-- JavaScript `String.prototype.split` with a one-character separator:
every separator opens a new segment, so splitting `""` gives `[""]` and
splitting `"a,,b"` on `','` gives `["a","","b"]`. -/
def splitOnChar (sep : Char) : List Char → List (List Char)
  | [] => [[]]
  | c :: t =>
    if c == sep then [] :: splitOnChar sep t
    else
      match splitOnChar sep t with
      | h :: r => (c :: h) :: r
      | [] => [[c]]

/-- `props.split(",")`. -/
def splitOnComma (cs : List Char) : List (List Char) := splitOnChar ',' cs

/-- JavaScript `String.prototype.trim`: drop leading and trailing
whitespace. -/
def jsTrim (cs : List Char) : List Char :=
  ((cs.dropWhile Char.isWhitespace).reverse.dropWhile Char.isWhitespace).reverse

/-- `oneGalleryEntry` from `src/main.ts`: one parsed line. -/
structure OneGalleryEntry where
  filename : String
  gallery : String
  properties : List String
deriving DecidableEq, Repr

/-- `parseGalleryLine(line, gallery)` from `src/main.ts`: try the annotated
regex, then the bare regex; `match[2]` exists only for the annotated shape
and is comma-split and trimmed, otherwise properties default to `[]`. -/
def parseGalleryLine (line gallery : String) : Option OneGalleryEntry :=
  match matchAnnot line.data with
  | some (fn, props) =>
    some { filename := String.mk fn, gallery := gallery,
           properties := (splitOnComma props).map (fun t => String.mk (jsTrim t)) }
  | none =>
    match matchBare line.data with
    | some fn => some { filename := String.mk fn, gallery := gallery, properties := [] }
    | none => none

/-- `LogicMode` from `src/main.ts`. -/
inductive LogicMode where
  | disable
  | or
  | and
  | not
deriving DecidableEq, Repr

/-- The `value` argument of `evaluateField`: `string | string[]`. -/
inductive FieldValue where
  | scalar (s : String)
  | list (l : List String)
deriving DecidableEq, Repr

/-- The value sequence a `FieldValue` stands for (a scalar is a one-element
list, as `Array.isArray(value) ? ... : [value.toLowerCase()]` treats it). -/
def FieldValue.values : FieldValue → List String
  | .scalar s => [s]
  | .list l => l

/-- `evaluateField(value, terms, mode)` from `src/main.ts`. -/
def evaluateField (value : FieldValue) (terms : List String) (mode : LogicMode) : Bool :=
  if mode = LogicMode.disable then true
  else
    let values : List String :=
      match value with
      | .list l => l.map jsToLower
      | .scalar s => [jsToLower s]
    let termsLower := terms.map jsToLower
    if terms.length = 0 then decide (mode = LogicMode.not)
    else
      match mode with
      | .or => termsLower.any (fun term => values.any (fun v => jsIncludes v term))
      | .and => termsLower.all (fun term => values.any (fun v => jsIncludes v term))
      | .not => termsLower.all (fun term => values.all (fun v => !(jsIncludes v term)))
      | .disable => true

/-- `GalleryEntry` from `src/main.ts`: the aggregated record for one item. -/
structure GalleryEntry where
  filename : String
  galleries : List String
  properties : List String
deriving DecidableEq, Repr

/-- `RawGalleryData` from `src/main.ts`: one source's lines plus its name. -/
structure RawGalleryData where
  content : List String
  galleryName : String
deriving DecidableEq, Repr

/-- `Map.prototype.get` on an insertion-ordered association list. -/
def lookupAssoc {α : Type} : List (String × α) → String → Option α
  | [], _ => none
  | (k, v) :: rest, key => if k = key then some v else lookupAssoc rest key

/-- `Map.prototype.set` on an insertion-ordered association list: an
existing key is updated in place, a new key is appended. -/
def setAssoc {α : Type} : List (String × α) → String → α → List (String × α)
  | [], key, v => [(key, v)]
  | (k, w) :: rest, key, v =>
    if k = key then (key, v) :: rest else (k, w) :: setAssoc rest key v

/-- `if (!xs.includes(x)) xs.push(x)`: append an element only when it is
not already present. -/
def addProp (xs : List String) (x : String) : List String :=
  if x ∈ xs then xs else xs ++ [x]

/-- The fold step of `ExtractGalleryData.extract`: merge one parsed line
into the image map, adding the gallery name and each property only when not
already present. -/
def foldEntry (m : List (String × GalleryEntry)) (e : OneGalleryEntry) :
    List (String × GalleryEntry) :=
  let existing := (lookupAssoc m e.filename).getD
    { filename := e.filename, galleries := [], properties := [] }
  let galleries := addProp existing.galleries e.gallery
  let properties := e.properties.foldl addProp existing.properties
  setAssoc m e.filename
    { filename := existing.filename, galleries := galleries, properties := properties }

/-- The pure part of `ExtractGalleryData.extract`: parse every line of
every raw block, then fold all parsed entries into the image map. -/
def extractFromRaw (rawData : List RawGalleryData) : List (String × GalleryEntry) :=
  let parsedEntries := rawData.flatMap
    (fun r => r.content.filterMap (fun line => parseGalleryLine line r.galleryName))
  parsedEntries.foldl foldEntry []

/-- `MultiSearchFilter` from `src/main.ts`. -/
structure MultiSearchFilter where
  filenameMode : LogicMode
  galleryMode : LogicMode
  propertyMode : LogicMode
  filenameTerms : List String
  galleryTerms : List String
  propertyTerms : List String
deriving DecidableEq, Repr

/-- `VirtualGalleryEntry` from `src/main.ts`. -/
structure VirtualGalleryEntry where
  properties : List String
  galleries : List String
deriving DecidableEq, Repr

/-- The body of the filtering loop of `GallerySearchView.onOpen`: evaluate
the three fields of one entry and insert the entry into the result map when
every field either is disabled or evaluated to true. -/
def filterStep (filters : MultiSearchFilter)
    (virtualMap : List (String × VirtualGalleryEntry)) (p : String × GalleryEntry) :
    List (String × VirtualGalleryEntry) :=
  let fileMatch := evaluateField (.scalar p.1) filters.filenameTerms filters.filenameMode
  let galleryMatch := evaluateField (.list p.2.galleries) filters.galleryTerms filters.galleryMode
  let propMatch := evaluateField (.list p.2.properties) filters.propertyTerms filters.propertyMode
  let shouldInclude :=
    (decide (filters.filenameMode = LogicMode.disable) || fileMatch) &&
    (decide (filters.galleryMode = LogicMode.disable) || galleryMatch) &&
    (decide (filters.propertyMode = LogicMode.disable) || propMatch)
  if shouldInclude then
    setAssoc virtualMap p.1 { properties := p.2.properties, galleries := p.2.galleries }
  else virtualMap

/-- See `filterIndex`: the loop over the entries of the full image map. -/
def filterIndex (fullImageMap : List (String × GalleryEntry))
    (filters : MultiSearchFilter) : List (String × VirtualGalleryEntry) :=
  fullImageMap.foldl (filterStep filters) []

/-- One markdown file of the vault, as the explicit-name selector sees it:
its basename and its raw content. -/
structure MdFile where
  basename : String
  content : String
deriving DecidableEq, Repr

/-- `content.split("\n")`. -/
def splitLines (s : String) : List String := (splitOnChar '\n' s.data).map String.mk

/-- The `explicit` branch of `ExtractGalleryData.getGalleryContent`: for
each requested name in order, find the first file with that basename; a
missing name is skipped; a found file contributes its split content under
the file's own basename. -/
def getGalleryContentExplicit (mdFiles : List MdFile) (sourceData : List String) :
    List RawGalleryData :=
  sourceData.foldl
    (fun results name =>
      match mdFiles.find? (fun f => f.basename == name) with
      | none => results
      | some file =>
        results ++ [{ content := splitLines file.content, galleryName := file.basename }])
    []

/-! ## Helper lemmas -/

theorem leadsWith_iff (n : List Char) : ∀ h : List Char,
    leadsWith n h = true ↔ ∃ r, h = n ++ r := by
  induction n with
  | nil => intro h; simp [leadsWith]
  | cons a as ih =>
    intro h
    cases h with
    | nil => simp [leadsWith]
    | cons b bs =>
      simp only [leadsWith, Bool.and_eq_true, beq_iff_eq, ih bs, List.cons_append,
        List.cons.injEq]
      constructor
      · rintro ⟨rfl, r, rfl⟩; exact ⟨r, rfl, rfl⟩
      · rintro ⟨r, rfl, rfl⟩; exact ⟨rfl, r, rfl⟩

theorem includesSubList_iff (n : List Char) : ∀ h : List Char,
    includesSubList n h = true ↔ ∃ l r, h = l ++ n ++ r := by
  intro h
  induction h with
  | nil =>
    simp only [includesSubList, List.isEmpty_iff]
    constructor
    · rintro rfl; exact ⟨[], [], rfl⟩
    · rintro ⟨l, r, hl⟩
      rcases List.append_eq_nil.mp (List.append_eq_nil.mp hl.symm).1 with ⟨-, h2⟩
      exact h2
  | cons c t ih =>
    simp only [includesSubList, Bool.or_eq_true, leadsWith_iff, ih]
    constructor
    · rintro (⟨r, hr⟩ | ⟨l, r, rfl⟩)
      · exact ⟨[], r, by simp [hr]⟩
      · exact ⟨c :: l, r, rfl⟩
    · rintro ⟨l, r, hl⟩
      cases l with
      | nil => exact Or.inl ⟨r, by simpa using hl⟩
      | cons x l' =>
        rw [List.cons_append, List.cons_append, List.cons.injEq] at hl
        exact Or.inr ⟨l', r, hl.2⟩

theorem jsIncludes_iff (hay needle : String) :
    jsIncludes hay needle = true ↔ ∃ l r, hay.data = l ++ needle.data ++ r := by
  simp [jsIncludes, includesSubList_iff]

theorem jsIncludes_eq_false (hay needle : String) :
    jsIncludes hay needle = false ↔ ¬ ∃ l r, hay.data = l ++ needle.data ++ r := by
  rw [← jsIncludes_iff]
  cases jsIncludes hay needle <;> simp

/-! ## C4: empty term list -/

/-- C4: with an empty terms list, `evaluateField` returns true for the
`not` and `disable` modes and false for the `or` and `and` modes, whatever
the value is. -/
theorem c4_empty_terms (value : FieldValue) :
    evaluateField value [] LogicMode.not = true ∧
    evaluateField value [] LogicMode.disable = true ∧
    evaluateField value [] LogicMode.or = false ∧
    evaluateField value [] LogicMode.and = false := by
  cases value <;> simp [evaluateField]

/-! ## C3: annotated shape with empty property segment -/

/-- C3 counterexample: on the annotated line `<![[x]]<>>` with an empty
property segment, `parseGalleryLine` returns a one-element properties
sequence containing the empty string, not the empty sequence the claim
states. -/
theorem c3_counterexample :
    (parseGalleryLine "<![[x]]<>>" "g").map OneGalleryEntry.properties = some [""] ∧
    ¬ (parseGalleryLine "<![[x]]<>>" "g").map OneGalleryEntry.properties =
        some ([] : List String) := by
  constructor
  · decide
  · decide

/-- C3 amended: on every line whose annotated-embed match has an empty
property segment, `parseGalleryLine` returns the one-element properties
sequence `[""]` (the empty capture is comma-split into a single empty
token, which is kept). -/
theorem c3_amended_empty_segment (line g : String) (fn : List Char)
    (h : matchAnnot line.data = some (fn, [])) :
    (parseGalleryLine line g).map OneGalleryEntry.properties = some [""] := by
  simp [parseGalleryLine, h, splitOnComma, splitOnChar, jsTrim]

/-- Witness for `c3_amended_empty_segment` at the line `<![[x]]<>>`. -/
theorem c3_amended_witness :
    (parseGalleryLine "<![[x]]<>>" "g").map OneGalleryEntry.properties = some [""] :=
  c3_amended_empty_segment "<![[x]]<>>" "g" ['x'] (by decide)

/-! ## C9: bare-embed lines -/

/-- C9: on every line that does not match the annotated shape but matches
the bare-embed shape, `parseGalleryLine` yields an empty properties
sequence, the captured reference text itself as `filename` (no
normalisation), and the given gallery name unchanged. -/
theorem c9_bare_embed (line g : String) (fn : List Char)
    (h1 : matchAnnot line.data = none) (h2 : matchBare line.data = some fn) :
    parseGalleryLine line g = some ⟨String.mk fn, g, []⟩ := by
  simp [parseGalleryLine, h1, h2]

/-- Witness for `c9_bare_embed` at the line `![[img1.png]]`. -/
theorem c9_witness :
    parseGalleryLine "![[img1.png]]" "g" = some ⟨String.mk "img1.png".data, "g", []⟩ :=
  c9_bare_embed "![[img1.png]]" "g" ("img1.png".data) (by decide) (by decide)

/-! ## C5: comma splitting and trimming of the property segment -/

theorem splitOnChar_ne_nil (sep : Char) (cs : List Char) : splitOnChar sep cs ≠ [] := by
  cases cs with
  | nil => simp [splitOnChar]
  | cons c t =>
    simp only [splitOnChar]
    split
    · simp
    · split <;> simp

theorem splitOnChar_length (sep : Char) (cs : List Char) :
    (splitOnChar sep cs).length = cs.count sep + 1 := by
  induction cs with
  | nil => simp [splitOnChar]
  | cons c t ih =>
    simp only [splitOnChar]
    by_cases hc : c = sep
    · simp [hc, List.count_cons, ih]
    · cases hs : splitOnChar sep t with
      | nil => exact absurd hs (splitOnChar_ne_nil sep t)
      | cons h r =>
        rw [hs] at ih
        simp only [List.count_cons]
        simp [hc, List.length_cons, ← ih, hs, Ne.symm hc]

/-- C5: on every line matching the annotated shape, the properties are the
comma-split, individually trimmed tokens of the captured property segment,
in order; the token count is the comma count plus one (so duplicate and
empty-after-trim tokens are all kept); concretely, the segment `a, b ,c`
yields `["a","b","c"]` and `a,,b` yields `["a","","b"]`. -/
theorem c5_property_tokens (line g : String) (fn props : List Char)
    (h : matchAnnot line.data = some (fn, props)) :
    (parseGalleryLine line g).map OneGalleryEntry.properties =
      some ((splitOnComma props).map (fun t => String.mk (jsTrim t))) ∧
    ((splitOnComma props).map (fun t => String.mk (jsTrim t))).length
      = props.count ',' + 1 ∧
    (parseGalleryLine "<![[x]]<a, b ,c>>" "g").map OneGalleryEntry.properties
      = some ["a", "b", "c"] ∧
    (parseGalleryLine "<![[x]]<a,,b>>" "g").map OneGalleryEntry.properties
      = some ["a", "", "b"] := by
  refine ⟨by simp [parseGalleryLine, h], ?_, by decide, by decide⟩
  simp [splitOnComma, splitOnChar_length]

/-- Witness for `c5_property_tokens` at the line `<![[x]]<a, b ,c>>`. -/
theorem c5_witness :
    (parseGalleryLine "<![[x]]<a, b ,c>>" "g").map OneGalleryEntry.properties
      = some ["a", "b", "c"] :=
  (c5_property_tokens "<![[x]]<a, b ,c>>" "g" ['x'] ("a, b ,c".data) (by decide)).2.2.1

/-! ## C1: mode semantics of `evaluateField` on a non-empty term list -/

theorem evaluateField_values_eq (value : FieldValue) :
    (match value with
      | .list l => l.map jsToLower
      | .scalar s => [jsToLower s]) = value.values.map jsToLower := by
  cases value <;> simp [FieldValue.values]

/-- C1: on a non-empty term list, `or` holds iff some lowered term occurs
inside some lowered value, `and` holds iff every lowered term occurs inside
some lowered value (not necessarily the same one), and `not` holds iff no
lowered term occurs inside any lowered value; a scalar value stands for the
one-element value list `FieldValue.values` gives. -/
theorem c1_evaluateField_semantics (value : FieldValue) (terms : List String)
    (h : terms ≠ []) :
    (evaluateField value terms LogicMode.or = true ↔
      ∃ t ∈ terms, ∃ v ∈ value.values, ∃ l r,
        (jsToLower v).data = l ++ (jsToLower t).data ++ r) ∧
    (evaluateField value terms LogicMode.and = true ↔
      ∀ t ∈ terms, ∃ v ∈ value.values, ∃ l r,
        (jsToLower v).data = l ++ (jsToLower t).data ++ r) ∧
    (evaluateField value terms LogicMode.not = true ↔
      ∀ t ∈ terms, ∀ v ∈ value.values, ¬ ∃ l r,
        (jsToLower v).data = l ++ (jsToLower t).data ++ r) := by
  have hlen : ¬ terms.length = 0 := by simpa [List.length_eq_zero] using h
  refine ⟨?_, ?_, ?_⟩ <;>
    simp [evaluateField, hlen, evaluateField_values_eq, List.any_map, List.all_map,
      List.any_eq_true, List.all_eq_true, Function.comp, jsIncludes_iff,
      jsIncludes_eq_false]

/-- Witness for `c1_evaluateField_semantics`: the term `cat` matches the
value list `["Cat","Dog"]` under `or` mode case-insensitively. -/
theorem c1_witness :
    evaluateField (FieldValue.list ["Cat", "Dog"]) ["cat"] LogicMode.or = true :=
  ((c1_evaluateField_semantics (FieldValue.list ["Cat", "Dog"]) ["cat"]
      (by decide)).1).mpr ⟨"cat", by decide, "Cat", by decide, [], [], by decide⟩

/-! ## C10: explicit selection policy -/

theorem getGalleryContentExplicit_fold (mdFiles : List MdFile) :
    ∀ (names : List String) (acc : List RawGalleryData),
      names.foldl
        (fun results name =>
          match mdFiles.find? (fun f => f.basename == name) with
          | none => results
          | some file =>
            results ++ [{ content := splitLines file.content, galleryName := file.basename }])
        acc
      = acc ++ names.filterMap (fun name =>
          (mdFiles.find? (fun f => f.basename == name)).map
            (fun file => { content := splitLines file.content, galleryName := file.basename })) := by
  intro names
  induction names with
  | nil => intro acc; simp
  | cons name rest ih =>
    intro acc
    simp only [List.foldl_cons, List.filterMap_cons]
    cases hf : mdFiles.find? (fun f => f.basename == name) with
    | none => simpa using ih acc
    | some file => simp [ih, List.append_assoc]

/-- C10: under the explicit policy, each requested name with no matching
file is skipped silently (the fold is a `filterMap`, so the result can only
be shorter than the name list), blocks appear in requested-name order, and
each produced block carries the matched file's own basename and split
content. -/
theorem c10_explicit_selection (mdFiles : List MdFile) (sourceData : List String) :
    getGalleryContentExplicit mdFiles sourceData
      = sourceData.filterMap (fun name =>
          (mdFiles.find? (fun f => f.basename == name)).map
            (fun file => { content := splitLines file.content, galleryName := file.basename })) ∧
    (getGalleryContentExplicit mdFiles sourceData).length ≤ sourceData.length ∧
    ∀ b ∈ getGalleryContentExplicit mdFiles sourceData,
      ∃ file ∈ mdFiles, b.galleryName = file.basename ∧ b.content = splitLines file.content := by
  have heq := getGalleryContentExplicit_fold mdFiles sourceData []
  refine ⟨by simpa [getGalleryContentExplicit] using heq, ?_, ?_⟩
  · rw [getGalleryContentExplicit, heq]
    simpa using List.length_filterMap_le _ sourceData
  · intro b hb
    rw [getGalleryContentExplicit, heq] at hb
    simp only [List.nil_append, List.mem_filterMap, Option.map_eq_some'] at hb
    obtain ⟨name, -, file, hfind, rfl⟩ := hb
    exact ⟨file, List.mem_of_find?_eq_some hfind, rfl, rfl⟩

/-- Witness for `c10_explicit_selection`: one matched name, one missed name. -/
theorem c10_witness :
    getGalleryContentExplicit [⟨"A", "x"⟩] ["A", "missing"]
      = [{ content := ["x"], galleryName := "A" }] := by
  rw [(c10_explicit_selection [⟨"A", "x"⟩] ["A", "missing"]).1]
  decide

/-! ## C2: query orchestration over the full index -/

theorem evaluateField_disable (v : FieldValue) (terms : List String) :
    evaluateField v terms LogicMode.disable = true := rfl

theorem disable_or_evaluateField (m : LogicMode) (v : FieldValue) (terms : List String) :
    (decide (m = LogicMode.disable) || evaluateField v terms m) = evaluateField v terms m := by
  cases m <;> simp [evaluateField]

theorem setAssoc_of_not_mem {α : Type} (m : List (String × α)) (k : String) (v : α)
    (h : k ∉ m.map Prod.fst) : setAssoc m k v = m ++ [(k, v)] := by
  induction m with
  | nil => rfl
  | cons p rest ih =>
    simp only [List.map_cons, List.mem_cons] at h
    push_neg at h
    simp [setAssoc, Ne.symm h.1, ih h.2]

/-- The predicate of the filtering loop, with the redundant disable test
already absorbed into `evaluateField`. -/
def entryMatches (filters : MultiSearchFilter) (p : String × GalleryEntry) : Bool :=
  evaluateField (.scalar p.1) filters.filenameTerms filters.filenameMode &&
  evaluateField (.list p.2.galleries) filters.galleryTerms filters.galleryMode &&
  evaluateField (.list p.2.properties) filters.propertyTerms filters.propertyMode

theorem filterStep_eq (filters : MultiSearchFilter)
    (virtualMap : List (String × VirtualGalleryEntry)) (p : String × GalleryEntry) :
    filterStep filters virtualMap p =
      if entryMatches filters p then
        setAssoc virtualMap p.1 { properties := p.2.properties, galleries := p.2.galleries }
      else virtualMap := by
  simp [filterStep, entryMatches, disable_or_evaluateField]

theorem filterIndex_fold (filters : MultiSearchFilter) :
    ∀ (idx : List (String × GalleryEntry)) (acc : List (String × VirtualGalleryEntry)),
      (idx.map Prod.fst).Nodup →
      (∀ p ∈ idx, p.1 ∉ acc.map Prod.fst) →
      idx.foldl (filterStep filters) acc
        = acc ++ (idx.filter (entryMatches filters)).map
            (fun p => (p.1, ⟨p.2.properties, p.2.galleries⟩)) := by
  intro idx
  induction idx with
  | nil => intro acc _ _; simp
  | cons p rest ih =>
    intro acc hnd hdisj
    simp only [List.map_cons, List.nodup_cons] at hnd
    simp only [List.foldl_cons, List.filter_cons, filterStep_eq]
    by_cases hm : entryMatches filters p
    · have hfresh : ∀ q ∈ rest, q.1 ∉
          (acc ++ [(p.1, (⟨p.2.properties, p.2.galleries⟩ : VirtualGalleryEntry))]).map
            Prod.fst := by
        intro q hq
        simp only [List.map_append, List.mem_append, List.map_cons, List.map_nil,
          List.mem_singleton]
        rintro (habs | habs)
        · exact hdisj q (List.mem_cons_of_mem p hq) habs
        · exact hnd.1 (habs ▸ List.mem_map_of_mem Prod.fst hq)
      rw [if_pos hm, setAssoc_of_not_mem acc p.1 _ (hdisj p (List.mem_cons_self p rest)),
        ih _ hnd.2 hfresh]
      simp [hm, List.append_assoc]
    · rw [if_neg hm, ih acc hnd.2 (fun q hq => hdisj q (List.mem_cons_of_mem p hq))]
      simp [hm]

/-- C2: for a full index with distinct item identifiers, the filtering loop
of `GallerySearchView.onOpen` keeps exactly the entries for which all three
field evaluations return true (the identifier as a scalar, the gallery and
property lists as value lists), preserves the index's entry order, and
passes each kept entry's galleries and properties through unchanged; a
disabled field always evaluates to true. -/
theorem c2_filter_semantics (idx : List (String × GalleryEntry))
    (filters : MultiSearchFilter) (h : (idx.map Prod.fst).Nodup) :
    filterIndex idx filters
      = (idx.filter (fun p =>
          evaluateField (.scalar p.1) filters.filenameTerms filters.filenameMode &&
          evaluateField (.list p.2.galleries) filters.galleryTerms filters.galleryMode &&
          evaluateField (.list p.2.properties) filters.propertyTerms filters.propertyMode)).map
          (fun p => (p.1, ⟨p.2.properties, p.2.galleries⟩)) ∧
    ∀ v terms, evaluateField v terms LogicMode.disable = true := by
  refine ⟨?_, fun v terms => evaluateField_disable v terms⟩
  simpa [entryMatches] using filterIndex_fold filters idx [] h (by simp)

/-- Witness for `c2_filter_semantics` at a concrete two-entry index. -/
theorem c2_witness :
    filterIndex
      [("img1.png", ⟨"img1.png", ["A", "B"], ["red", "large"]⟩),
       ("img2.png", ⟨"img2.png", ["A"], ["blue"]⟩)]
      ⟨LogicMode.or, LogicMode.disable, LogicMode.disable, ["img1"], [], []⟩
      = [("img1.png", ⟨["red", "large"], ["A", "B"]⟩)] := by
  rw [(c2_filter_semantics
    [("img1.png", ⟨"img1.png", ["A", "B"], ["red", "large"]⟩),
     ("img2.png", ⟨"img2.png", ["A"], ["blue"]⟩)]
    ⟨LogicMode.or, LogicMode.disable, LogicMode.disable, ["img1"], [], []⟩
    (by decide)).1]
  decide

/-! ## Association-list and `addProp` lemmas for the aggregation pass -/

theorem mem_addProp (xs : List String) (x y : String) (h : y ∈ xs) : y ∈ addProp xs x := by
  simp only [addProp]
  split
  · exact h
  · exact List.mem_append_left _ h

theorem self_mem_addProp (xs : List String) (x : String) : x ∈ addProp xs x := by
  simp only [addProp]
  split
  · assumption
  · simp

theorem mem_foldl_addProp_of_mem_init (ps : List String) :
    ∀ (acc : List String) (y : String), y ∈ acc → y ∈ ps.foldl addProp acc := by
  induction ps with
  | nil => intro acc y h; simpa using h
  | cons p rest ih => intro acc y h; exact ih _ y (mem_addProp _ p y h)

theorem mem_foldl_addProp_of_mem (ps : List String) :
    ∀ (acc : List String) (p : String), p ∈ ps → p ∈ ps.foldl addProp acc := by
  induction ps with
  | nil => intro acc p h; simp at h
  | cons q rest ih =>
    intro acc p h
    rcases List.mem_cons.mp h with rfl | h
    · exact mem_foldl_addProp_of_mem_init rest _ p (self_mem_addProp acc p)
    · exact ih _ p h

theorem foldl_addProp_id (ps : List String) :
    ∀ acc : List String, (∀ p ∈ ps, p ∈ acc) → ps.foldl addProp acc = acc := by
  induction ps with
  | nil => intro acc _; rfl
  | cons q rest ih =>
    intro acc h
    have hq : addProp acc q = acc := by simp [addProp, h q (List.mem_cons_self q rest)]
    simp only [List.foldl_cons, hq]
    exact ih acc (fun p hp => h p (List.mem_cons_of_mem q hp))

theorem addProp_nodup (xs : List String) (x : String) (h : xs.Nodup) :
    (addProp xs x).Nodup := by
  simp only [addProp]
  split
  · exact h
  · next hx => simp [List.nodup_append, h, hx]

theorem foldl_addProp_nodup (ps : List String) :
    ∀ acc : List String, acc.Nodup → (ps.foldl addProp acc).Nodup := by
  induction ps with
  | nil => intro acc h; simpa using h
  | cons q rest ih => intro acc h; exact ih _ (addProp_nodup acc q h)

theorem lookupAssoc_setAssoc {α : Type} (m : List (String × α)) (k key : String) (v : α) :
    lookupAssoc (setAssoc m k v) key = if k = key then some v else lookupAssoc m key := by
  induction m with
  | nil => simp [setAssoc, lookupAssoc]
  | cons p rest ih =>
    obtain ⟨k', w⟩ := p
    simp only [setAssoc]
    by_cases h1 : k' = k
    · rw [if_pos h1]
      subst h1
      simp only [lookupAssoc]
      by_cases h2 : k' = key <;> simp [h2]
    · rw [if_neg h1]
      by_cases h2 : k' = key
      · subst h2
        have : ¬ k = k' := fun habs => h1 habs.symm
        simp [lookupAssoc, this]
      · simp [lookupAssoc, h2, ih]

theorem lookupAssoc_mem {α : Type} (m : List (String × α)) (k : String) (v : α)
    (h : lookupAssoc m k = some v) : (k, v) ∈ m := by
  induction m with
  | nil => simp [lookupAssoc] at h
  | cons p rest ih =>
    obtain ⟨k', w⟩ := p
    simp only [lookupAssoc] at h
    split at h
    · next heq => cases h; exact heq ▸ List.mem_cons_self _ _
    · exact List.mem_cons_of_mem _ (ih h)

theorem mem_setAssoc {α : Type} (m : List (String × α)) (k : String) (v : α) :
    ∀ p ∈ setAssoc m k v, p = (k, v) ∨ p ∈ m := by
  induction m with
  | nil =>
    intro p hp
    simp only [setAssoc, List.mem_singleton] at hp
    exact Or.inl hp
  | cons q rest ih =>
    intro p hp
    simp only [setAssoc] at hp
    split at hp
    · rcases List.mem_cons.mp hp with rfl | h
      · exact Or.inl rfl
      · exact Or.inr (List.mem_cons_of_mem q h)
    · rcases List.mem_cons.mp hp with rfl | h
      · exact Or.inr (List.mem_cons_self _ _)
      · rcases ih p h with h' | h'
        · exact Or.inl h'
        · exact Or.inr (List.mem_cons_of_mem q h')

theorem setAssoc_lookup_self {α : Type} (m : List (String × α)) (k : String) (v : α)
    (h : lookupAssoc m k = some v) : setAssoc m k v = m := by
  induction m with
  | nil => simp [lookupAssoc] at h
  | cons q rest ih =>
    obtain ⟨k', w⟩ := q
    simp only [lookupAssoc] at h
    simp only [setAssoc]
    by_cases h1 : k' = k
    · rw [if_pos h1] at h ⊢
      cases h
      rw [h1]
    · rw [if_neg h1] at h ⊢
      rw [ih h]

/-! ## C6 and C7: the aggregation fold -/

/-- The image map already accounts for a parsed entry: its filename is
present and carries the entry's gallery and all its properties. -/
def Absorbs (m : List (String × GalleryEntry)) (e : OneGalleryEntry) : Prop :=
  ∃ entry, lookupAssoc m e.filename = some entry ∧
    e.gallery ∈ entry.galleries ∧ ∀ p ∈ e.properties, p ∈ entry.properties

theorem lookupAssoc_foldEntry_self (m : List (String × GalleryEntry)) (e : OneGalleryEntry) :
    lookupAssoc (foldEntry m e) e.filename = some
      { filename := ((lookupAssoc m e.filename).getD
          { filename := e.filename, galleries := [], properties := [] }).filename,
        galleries := addProp
          ((lookupAssoc m e.filename).getD
            { filename := e.filename, galleries := [], properties := [] }).galleries e.gallery,
        properties := e.properties.foldl addProp
          ((lookupAssoc m e.filename).getD
            { filename := e.filename, galleries := [], properties := [] }).properties } := by
  simp [foldEntry, lookupAssoc_setAssoc]

theorem absorbs_foldEntry_self (m : List (String × GalleryEntry)) (e : OneGalleryEntry) :
    Absorbs (foldEntry m e) e :=
  ⟨_, lookupAssoc_foldEntry_self m e, self_mem_addProp _ _,
    fun p hp => mem_foldl_addProp_of_mem _ _ p hp⟩

theorem absorbs_preserved (m : List (String × GalleryEntry)) (e e' : OneGalleryEntry)
    (h : Absorbs m e) : Absorbs (foldEntry m e') e := by
  obtain ⟨entry, hl, hg, hp⟩ := h
  by_cases hk : e'.filename = e.filename
  · have hl' : lookupAssoc m e'.filename = some entry := hk ▸ hl
    have hlook := lookupAssoc_foldEntry_self m e'
    rw [hl'] at hlook
    simp only [Option.getD_some] at hlook
    refine ⟨_, hk ▸ hlook, ?_, ?_⟩
    · exact mem_addProp _ e'.gallery e.gallery hg
    · intro p hp'
      exact mem_foldl_addProp_of_mem_init e'.properties _ p (hp p hp')
  · exact ⟨entry, by simp [foldEntry, lookupAssoc_setAssoc, hk, hl], hg, hp⟩

theorem absorbs_foldl_preserved (es : List OneGalleryEntry) :
    ∀ (m : List (String × GalleryEntry)) (e : OneGalleryEntry),
      Absorbs m e → Absorbs (es.foldl foldEntry m) e := by
  induction es with
  | nil => intro m e h; simpa using h
  | cons e0 rest ih => intro m e h; exact ih _ e (absorbs_preserved m e e0 h)

theorem absorbs_foldl_all (es : List OneGalleryEntry) :
    ∀ (m : List (String × GalleryEntry)), ∀ e ∈ es, Absorbs (es.foldl foldEntry m) e := by
  induction es with
  | nil => intro m e h; simp at h
  | cons e0 rest ih =>
    intro m e he
    rcases List.mem_cons.mp he with rfl | he'
    · exact absorbs_foldl_preserved rest _ e (absorbs_foldEntry_self m e)
    · exact ih (foldEntry m e0) e he'

theorem foldEntry_absorbed (m : List (String × GalleryEntry)) (e : OneGalleryEntry)
    (h : Absorbs m e) : foldEntry m e = m := by
  obtain ⟨entry, hl, hg, hp⟩ := h
  have hgal : addProp entry.galleries e.gallery = entry.galleries := by
    simp [addProp, hg]
  simp only [foldEntry, hl, Option.getD_some, hgal, foldl_addProp_id e.properties _ hp]
  exact setAssoc_lookup_self m e.filename entry hl

theorem foldl_foldEntry_absorbed (es : List OneGalleryEntry) :
    ∀ m : List (String × GalleryEntry), (∀ e ∈ es, Absorbs m e) →
      es.foldl foldEntry m = m := by
  induction es with
  | nil => intro m _; rfl
  | cons e0 rest ih =>
    intro m h
    simp only [List.foldl_cons, foldEntry_absorbed m e0 (h e0 (List.mem_cons_self e0 rest))]
    exact ih m (fun e he => h e (List.mem_cons_of_mem e0 he))

/-- C6: aggregating a block twice produces exactly the same index as
aggregating it once — the second pass finds every gallery name and property
already present and adds nothing. -/
theorem c6_aggregation_idempotent (b : RawGalleryData) :
    extractFromRaw [b, b] = extractFromRaw [b] := by
  simp only [extractFromRaw, List.flatMap_cons, List.flatMap_nil, List.append_nil]
  rw [List.foldl_append]
  exact foldl_foldEntry_absorbed _ _ (absorbs_foldl_all _ [])

/-- Every entry stored in the image map has duplicate-free gallery and
property sequences. -/
def IndexNodup (m : List (String × GalleryEntry)) : Prop :=
  ∀ p ∈ m, p.2.galleries.Nodup ∧ p.2.properties.Nodup

theorem indexNodup_foldEntry (m : List (String × GalleryEntry)) (e : OneGalleryEntry)
    (h : IndexNodup m) : IndexNodup (foldEntry m e) := by
  intro p hp
  simp only [foldEntry] at hp
  rcases mem_setAssoc m e.filename _ p hp with rfl | hm
  · cases hlook : lookupAssoc m e.filename with
    | none =>
      simp only [hlook, Option.getD_none]
      exact ⟨addProp_nodup _ _ (by simp), foldl_addProp_nodup _ _ (by simp)⟩
    | some entry =>
      have := h (e.filename, entry) (lookupAssoc_mem m e.filename entry hlook)
      simp only [hlook, Option.getD_some]
      exact ⟨addProp_nodup _ _ this.1, foldl_addProp_nodup _ _ this.2⟩
  · exact h p hm

theorem indexNodup_foldl (es : List OneGalleryEntry) :
    ∀ m : List (String × GalleryEntry), IndexNodup m →
      IndexNodup (es.foldl foldEntry m) := by
  induction es with
  | nil => intro m h; simpa using h
  | cons e0 rest ih => intro m h; exact ih _ (indexNodup_foldEntry m e0 h)

/-- C7: the fold step of aggregation preserves duplicate-freedom of every
stored gallery and property sequence (so the invariant holds after every
fold step), and in the final aggregation output every entry's galleries and
properties are duplicate-free. -/
theorem c7_no_duplicates :
    (∀ (m : List (String × GalleryEntry)) (e : OneGalleryEntry),
      IndexNodup m → IndexNodup (foldEntry m e)) ∧
    ∀ rawData : List RawGalleryData, ∀ p ∈ extractFromRaw rawData,
      p.2.galleries.Nodup ∧ p.2.properties.Nodup := by
  refine ⟨indexNodup_foldEntry, fun rawData => ?_⟩
  exact indexNodup_foldl _ [] (by intro p hp; simp at hp)

/-- Witness for `c7_no_duplicates`: a fold step on the empty map with a
duplicated property list, and a source whose lines repeat a reference. -/
theorem c7_witness :
    IndexNodup (foldEntry [] ⟨"a", "G", ["p", "p"]⟩) ∧
    ∀ p ∈ extractFromRaw [⟨["![[a]]", "![[a]]"], "G"⟩],
      p.2.galleries.Nodup ∧ p.2.properties.Nodup :=
  ⟨c7_no_duplicates.1 [] ⟨"a", "G", ["p", "p"]⟩ (by intro p hp; simp at hp),
   c7_no_duplicates.2 [⟨["![[a]]", "![[a]]"], "G"⟩]⟩

/-! ## C8: the annotated shape is tried before the bare shape -/

theorem lazyUntil_isSome_append (needle : List Char) : ∀ (pre rest : List Char),
    (∀ c ∈ pre, isLineTerm c = false) →
    (lazyUntil needle (pre ++ (needle ++ rest))).isSome := by
  intro pre
  induction pre with
  | nil =>
    intro rest _
    simp only [List.nil_append]
    cases hnr : needle ++ rest with
    | nil =>
      have hn : needle = [] := (List.append_eq_nil.mp hnr).1
      simp [lazyUntil, hn, leadsWith]
    | cons c t =>
      have hlw : leadsWith needle (c :: t) = true :=
        (leadsWith_iff needle (c :: t)).mpr ⟨rest, hnr.symm⟩
      rw [lazyUntil, if_pos hlw]
      simp
  | cons c pre' ih =>
    intro rest h
    have hc : isLineTerm c = false := h c (List.mem_cons_self _ _)
    have ih' := ih rest (fun x hx => h x (List.mem_cons_of_mem c hx))
    rw [List.cons_append, lazyUntil]
    by_cases hl : leadsWith needle (c :: (pre' ++ (needle ++ rest))) = true
    · rw [if_pos hl]; simp
    · rw [if_neg hl, if_neg (by simp [hc])]
      obtain ⟨⟨cap, r⟩, hsome⟩ := Option.isSome_iff_exists.mp ih'
      rw [hsome]
      simp

theorem annotHere_shape (c : Char) (t : List Char) (c1 c2 : List Char)
    (h : annotHere c t = some (c1, c2)) :
    c1 = [] ∧ ∃ v, c :: t = ']' :: ']' :: '<' :: v := by
  simp only [annotHere] at h
  split at h
  · next hlw =>
    obtain ⟨r, hr⟩ := (leadsWith_iff _ _).mp hlw
    split at h
    · next cap2 heq =>
      cases h
      exact ⟨rfl, r, by simpa using hr⟩
    · cases h
  · cases h

theorem annotTail_shape : ∀ (u c1 c2 : List Char), annotTail u = some (c1, c2) →
    (∀ c ∈ c1, isLineTerm c = false) ∧ ∃ v, u = c1 ++ ']' :: ']' :: '<' :: v := by
  intro u
  induction u with
  | nil => intro c1 c2 h; simp [annotTail] at h
  | cons c t ih =>
    intro c1 c2 h
    rw [annotTail] at h
    cases hh : annotHere c t with
    | some r =>
      rw [hh] at h
      have hr : r = (c1, c2) := by injection h
      subst hr
      obtain ⟨h1, v, hv⟩ := annotHere_shape c t c1 c2 hh
      subst h1
      exact ⟨by simp, v, by simpa using hv⟩
    | none =>
      rw [hh] at h
      by_cases hterm : isLineTerm c = true
      · rw [if_pos hterm] at h; cases h
      · rw [if_neg hterm] at h
        cases ht : annotTail t with
        | none => rw [ht] at h; cases h
        | some r' =>
          obtain ⟨ca, cb⟩ := r'
          rw [ht] at h
          have hcc : (c :: ca, cb) = (c1, c2) := by injection h
          have hca : c :: ca = c1 := congrArg Prod.fst hcc
          have hcb : cb = c2 := congrArg Prod.snd hcc
          subst hcb
          obtain ⟨hfree, v, hv⟩ := ih ca cb ht
          rw [← hca]
          refine ⟨?_, v, by simp [hv]⟩
          intro x hx
          rcases List.mem_cons.mp hx with rfl | hx'
          · simpa using hterm
          · exact hfree x hx'

theorem bareAt_isSome_of_shape (u c1 v : List Char)
    (hfree : ∀ c ∈ c1, isLineTerm c = false)
    (hu : u = c1 ++ ']' :: ']' :: '<' :: v) :
    (bareAt ('!' :: '[' :: '[' :: u)).isSome := by
  have hlw : leadsWith ['!', '[', '['] ('!' :: '[' :: '[' :: u) = true :=
    (leadsWith_iff _ _).mpr ⟨u, rfl⟩
  rw [bareAt, if_pos hlw]
  have hdrop : ('!' :: '[' :: '[' :: u).drop 3 = u := rfl
  rw [hdrop]
  have hlz : (lazyUntil [']', ']'] u).isSome := by
    rw [hu, show c1 ++ ']' :: ']' :: '<' :: v = c1 ++ ([']', ']'] ++ ('<' :: v)) from by simp]
    exact lazyUntil_isSome_append [']', ']'] c1 ('<' :: v) hfree
  obtain ⟨⟨cap, r⟩, hsome⟩ := Option.isSome_iff_exists.mp hlz
  rw [hsome]
  simp

theorem matchBare_isSome_of_annot : ∀ cs : List Char,
    (matchAnnot cs).isSome → (matchBare cs).isSome := by
  intro cs
  induction cs with
  | nil => simp [matchAnnot, matchBare]
  | cons c t ih =>
    intro h
    rw [matchAnnot] at h
    cases ha : annotAt (c :: t) with
    | none =>
      rw [ha] at h
      have hb := ih h
      rw [matchBare]
      cases hbt : bareAt (c :: t) with
      | some r => simp
      | none => exact hb
    | some r =>
      have ha' := ha
      simp only [annotAt] at ha'
      split at ha'
      · next hlw =>
        obtain ⟨u, hu⟩ := (leadsWith_iff _ _).mp hlw
        have hdrop : (c :: t).drop 4 = u := by rw [hu]; rfl
        rw [hdrop] at ha'
        obtain ⟨hfree, v, hv⟩ := annotTail_shape u r.1 r.2 (by rw [ha'])
        have ht : t = '!' :: '[' :: '[' :: u := by
          have h2 : c :: t = '<' :: '!' :: '[' :: '[' :: u := by simpa using hu
          injection h2
        have hbare : (bareAt t).isSome := ht ▸ bareAt_isSome_of_shape u r.1 v hfree hv
        rw [matchBare]
        cases hbt : bareAt (c :: t) with
        | some r2 => simp
        | none =>
          rw [ht, matchBare]
          cases hb2 : bareAt ('!' :: '[' :: '[' :: u) with
          | some _ => simp
          | none =>
            rw [ht, hb2] at hbare
            simp at hbare
      · cases ha'

/-- C8: the annotated regex is tried before the bare one, so on every line
matching the annotated shape the parsed record's filename and properties
come from the two annotated captures, even though the bare regex would also
match the same line. -/
theorem c8_annotated_first (line g : String) (fn props : List Char)
    (h : matchAnnot line.data = some (fn, props)) :
    parseGalleryLine line g = some ⟨String.mk fn, g,
      (splitOnComma props).map (fun t => String.mk (jsTrim t))⟩ ∧
    (matchBare line.data).isSome := by
  refine ⟨by simp [parseGalleryLine, h], ?_⟩
  exact matchBare_isSome_of_annot line.data (by rw [h]; rfl)

/-- Witness for `c8_annotated_first` at `<![[x]]<red>>`, a line both
regexes match. -/
theorem c8_witness :
    parseGalleryLine "<![[x]]<red>>" "g" = some ⟨String.mk ['x'], "g",
      (splitOnComma "red".data).map (fun t => String.mk (jsTrim t))⟩ ∧
    (matchBare ("<![[x]]<red>>" : String).data).isSome :=
  c8_annotated_first "<![[x]]<red>>" "g" ['x'] ("red".data) (by decide)

end GalleryPlugin
